import Mathlib

/-!
Shallow embedding of `src/main.py` (Cytiva SDS PDF downloader) and proofs
about it.  Strings are modelled as `List Char`; filesystem state as explicit
records; network and PDF-library effects as oracle values passed in.
-/

set_option maxRecDepth 4096

/-! ## Character classes used by the sanitizer (regex `[A-Za-z0-9_]` etc.) -/

/-- A character matched by the regex class `[A-Za-z0-9_]` (`re.sub` in
`sanitize_filename` replaces everything else with `_`).  Stated via code
points: 65–90 = `A`–`Z`, 97–122 = `a`–`z`, 48–57 = `0`–`9`, 95 = `_`. -/
def isWordChar (c : Char) : Bool :=
  decide ((65 ≤ c.toNat ∧ c.toNat ≤ 90) ∨ (97 ≤ c.toNat ∧ c.toNat ≤ 122) ∨
    (48 ≤ c.toNat ∧ c.toNat ≤ 57) ∨ c.toNat = 95)

/-- A character of the output alphabet `[a-z0-9_]` of the sanitizer. -/
def isLowerWordChar (c : Char) : Bool :=
  decide ((97 ≤ c.toNat ∧ c.toNat ≤ 122) ∨ (48 ≤ c.toNat ∧ c.toNat ≤ 57) ∨
    c.toNat = 95)

/-- Python `str.lower()` restricted to ASCII (the call sites in
`sanitize_filename` only ever see characters from `[A-Za-z0-9_]` and the
literal `.pdf`, so ASCII lowering is an exact model there). -/
def lowerChar (c : Char) : Char :=
  if 65 ≤ c.toNat ∧ c.toNat ≤ 90 then Char.ofNat (c.toNat + 32) else c

/-! ## `urllib.parse.unquote` (percent-decoding, UTF-8 with replacement) -/

/-- Value of a hexadecimal digit, as used by percent-escapes. -/
def hexVal (c : Char) : Option Nat :=
  if 48 ≤ c.toNat ∧ c.toNat ≤ 57 then some (c.toNat - 48)
  else if 65 ≤ c.toNat ∧ c.toNat ≤ 70 then some (c.toNat - 55)
  else if 97 ≤ c.toNat ∧ c.toNat ≤ 102 then some (c.toNat - 87)
  else none

/-- UTF-8 continuation byte `0x80`–`0xBF`. -/
def isCont (b : Nat) : Bool := decide (128 ≤ b ∧ b ≤ 191)

/-- Constrained second byte after `0xE0`/`0xED` (excludes overlong forms and
surrogates), otherwise an ordinary continuation byte. -/
def isCont2 (b c : Nat) : Bool :=
  if b = 224 then decide (160 ≤ c ∧ c ≤ 191)
  else if b = 237 then decide (128 ≤ c ∧ c ≤ 159)
  else isCont c

/-- Constrained second byte after `0xF0`/`0xF4`, otherwise an ordinary
continuation byte. -/
def isCont3 (b c : Nat) : Bool :=
  if b = 240 then decide (144 ≤ c ∧ c ≤ 191)
  else if b = 244 then decide (128 ≤ c ∧ c ≤ 143)
  else isCont c

/-- U+FFFD, the replacement character used by `errors="replace"`. -/
def repl : Char := Char.ofNat 65533

/-- UTF-8 decoding with replacement of invalid sequences, modelling
`bytes.decode("utf-8", "replace")` (replacement granularity on malformed
input is approximated: one U+FFFD per rejected lead byte). -/
def decodeUtf8 : List Nat → List Char
  | [] => []
  | b :: rest =>
    if b ≤ 127 then Char.ofNat b :: decodeUtf8 rest
    else if 194 ≤ b ∧ b ≤ 223 then
      match rest with
      | c1 :: r2 =>
        if isCont c1 then
          Char.ofNat ((b - 192) * 64 + (c1 - 128)) :: decodeUtf8 r2
        else repl :: decodeUtf8 (c1 :: r2)
      | [] => [repl]
    else if 224 ≤ b ∧ b ≤ 239 then
      match rest with
      | c1 :: c2 :: r2 =>
        if isCont2 b c1 ∧ isCont c2 then
          Char.ofNat ((b - 224) * 4096 + (c1 - 128) * 64 + (c2 - 128)) ::
            decodeUtf8 r2
        else repl :: decodeUtf8 (c1 :: c2 :: r2)
      | [c1] => repl :: decodeUtf8 [c1]
      | [] => [repl]
    else if 240 ≤ b ∧ b ≤ 244 then
      match rest with
      | c1 :: c2 :: c3 :: r2 =>
        if isCont3 b c1 ∧ isCont c2 ∧ isCont c3 then
          Char.ofNat ((b - 240) * 262144 + (c1 - 128) * 4096 +
            (c2 - 128) * 64 + (c3 - 128)) :: decodeUtf8 r2
        else repl :: decodeUtf8 (c1 :: c2 :: c3 :: r2)
      | [c1, c2] => repl :: decodeUtf8 [c1, c2]
      | [c1] => repl :: decodeUtf8 [c1]
      | [] => [repl]
    else repl :: decodeUtf8 rest

/-- Scanner for `unquote`: decodes maximal runs of `%XX` escapes through
`decodeUtf8`, leaves other characters (and invalid escapes) as-is.  `acc`
holds the pending percent-decoded bytes of the current run, reversed. -/
def unquoteLoop : List Char → List Nat → List Char
  | [], acc => decodeUtf8 acc.reverse
  | '%' :: a :: b :: rest, acc =>
    match hexVal a, hexVal b with
    | some ha, some hb => unquoteLoop rest ((16 * ha + hb) :: acc)
    | _, _ => decodeUtf8 acc.reverse ++ '%' :: unquoteLoop (a :: b :: rest) []
  | c :: rest, acc => decodeUtf8 acc.reverse ++ c :: unquoteLoop rest []

/-- `urllib.parse.unquote` with the default `utf-8`/`replace` arguments.
A string without `%` is returned unchanged (the library's fast path). -/
def unquote (l : List Char) : List Char :=
  if l.contains '%' then unquoteLoop l [] else l

/-! ## `os.path.basename`, `os.path.splitext`, `os.path.join` (posix) -/

/-- `os.path.basename`: everything after the last `/`. -/
def basename (l : List Char) : List Char :=
  (l.reverse.takeWhile (fun c => ¬ c = '/')).reverse

/-- `os.path.splitext` on a path without separators (as produced by
`basename`): split at the last dot, unless every character before that dot
is itself a dot (then there is no extension). -/
def splitext (l : List Char) : List Char × List Char :=
  let tl := (l.reverse.takeWhile (fun c => ¬ c = '.')).length
  if tl = l.length then (l, [])
  else if (l.take (l.length - tl - 1)).all (fun c => c = '.') then (l, [])
  else (l.take (l.length - tl - 1), l.drop (l.length - tl - 1))

/-- `os.path.join dir name` (posix, two arguments). -/
def os_path_join (a b : List Char) : List Char :=
  if b.head? = some '/' then b
  else if a = [] ∨ a.getLast? = some '/' then a ++ b
  else a ++ '/' :: b

/-! ## The sanitizer pipeline (`sanitize_filename`) -/

/-- One character of `re.sub(r"[^A-Za-z0-9_]", "_", ·)`. -/
def substChar (c : Char) : Char := if isWordChar c then c else '_'

/-- `re.sub(r"_+", "_", ·)`: collapse each run of underscores to one. -/
def collapse : List Char → List Char
  | [] => []
  | [c] => [c]
  | a :: b :: rest =>
    if a = '_' ∧ b = '_' then collapse (b :: rest)
    else a :: collapse (b :: rest)

/-- Remove trailing underscores (right half of `str.strip("_")`). -/
def rstripUnd : List Char → List Char
  | [] => []
  | a :: rest =>
    match rstripUnd rest with
    | [] => if a = '_' then [] else [a]
    | r => a :: r

/-- Python `safe_name.strip("_")`: trim leading and trailing underscores. -/
def stripUnd (l : List Char) : List Char :=
  rstripUnd (l.dropWhile (fun c => c = '_'))

/-- The literal string `".pdf"`. -/
def pdfExt : List Char := ['.', 'p', 'd', 'f']

/-- `sanitize_filename` from `src/main.py`: percent-decode, strip directory
parts, split extension, replace non-word characters with `_`, collapse and
trim underscores; empty base ⇒ empty result, otherwise lowercase base plus a
forced (lowercased) `.pdf` extension. -/
def sanitize_filename (filename : List Char) : List Char :=
  let f1 := unquote filename
  let f2 := basename f1
  let p := splitext f2
  let safe1 := p.1.map substChar
  let safe2 := collapse safe1
  let safe3 := stripUnd safe2
  if safe3 = [] then []
  else
    let e := if p.2 = pdfExt then p.2 else pdfExt
    safe3.map lowerChar ++ e.map lowerChar

example : sanitize_filename "A b.txt".data = "a_b.pdf".data := by decide
example : sanitize_filename "___.pdf".data = [] := by decide
example : sanitize_filename "%41%20x.PDF".data = "a_x.pdf".data := by decide
example : sanitize_filename "dir/Na%C3%AFve file.Pdf".data = "na_ve_file.pdf".data := by decide
example : sanitize_filename "..foo.txt".data = "foo.pdf".data := by decide
example : sanitize_filename ".bashrc".data = "bashrc.pdf".data := by decide

/-! ## `urllib.parse.urlparse(...).path` -/

/-- WHATWG C0-control-or-space characters stripped from both URL ends. -/
def isC0orSpace (c : Char) : Bool := decide (c.toNat ≤ 32)

/-- Tab, newline and carriage return are removed from URLs entirely. -/
def isUnsafeUrlChar (c : Char) : Bool :=
  decide (c.toNat = 9 ∨ c.toNat = 10 ∨ c.toNat = 13)

/-- ASCII letter. -/
def isAsciiAlpha (c : Char) : Bool :=
  decide ((65 ≤ c.toNat ∧ c.toNat ≤ 90) ∨ (97 ≤ c.toNat ∧ c.toNat ≤ 122))

/-- A character allowed in a URL scheme after its first letter. -/
def isSchemeChar (c : Char) : Bool :=
  isAsciiAlpha c || decide ((48 ≤ c.toNat ∧ c.toNat ≤ 57) ∨
    c.toNat = 43 ∨ c.toNat = 45 ∨ c.toNat = 46)

/-- The part before the first `:` is a valid scheme (letter, then
letters/digits/`+`/`-`/`.`). -/
def validScheme : List Char → Bool
  | [] => false
  | c :: rest => isAsciiAlpha c && rest.all isSchemeChar

/-- `urllib.parse.urlparse(url).path`: strip control/space characters at
both ends, remove tab/CR/LF, split off the scheme (when the part before the
first `:` is a valid scheme), the `//netloc` part, the fragment and the
query; what remains is the path. -/
def urlparse_path (url : List Char) : List Char :=
  let s0 := ((url.dropWhile isC0orSpace).reverse.dropWhile isC0orSpace).reverse
  let u0 := s0.filter (fun c => !(isUnsafeUrlChar c))
  let pre := u0.takeWhile (fun c => ¬ c = ':')
  let u1 :=
    if pre.length < u0.length ∧ validScheme pre then u0.drop (pre.length + 1)
    else u0
  let u2 :=
    if u1.take 2 = ['/', '/'] then
      (u1.drop 2).dropWhile (fun c => ¬ (c = '/' ∨ c = '?' ∨ c = '#'))
    else u1
  let u3 := u2.takeWhile (fun c => ¬ c = '#')
  u3.takeWhile (fun c => ¬ c = '?')

example : urlparse_path "https://host/a/b.pdf?q=1#frag".data = "/a/b.pdf".data := by
  decide
example : urlparse_path "https://x/A.pdf".data = "/A.pdf".data := by decide

/-! ## Filesystem and network model -/

/-- Local filesystem state: existing directories and files with contents
(contents as byte lists). -/
structure FS where
  dirs : List (List Char)
  files : List (List Char × List Nat)
deriving DecidableEq

/-- `os.path.isfile`-style check against the model. -/
def FS.fileExists (fs : FS) (p : List Char) : Bool :=
  fs.files.any (fun e => decide (e.1 = p))

/-- `os.path.exists`: a file or a directory is present at the path. -/
def FS.pathExists (fs : FS) (p : List Char) : Bool :=
  fs.fileExists p || fs.dirs.any (fun d => decide (d = p))

/-- `os.makedirs(save_directory, exist_ok=True)`. -/
def makedirs (fs : FS) (d : List Char) : FS :=
  if fs.dirs.any (fun x => decide (x = d)) then fs
  else { fs with dirs := d :: fs.dirs }

/-- `open(path, "wb")` followed by writing the whole body. -/
def writeFile (fs : FS) (p : List Char) (body : List Nat) : FS :=
  { fs with files := (p, body) :: fs.files.filter (fun e => !(decide (e.1 = p))) }

/-- Outcome of `requests.get(pdf_url, stream=True, timeout=60)` together
with `raise_for_status()` and the chunked body iteration:
success with a full body, a non-success HTTP status, a transport error
before any body is written, or a mid-stream error after a successful
status (leaving the bytes written so far). -/
inductive NetResult where
  | ok (body : List Nat)
  | httpError
  | netError
  | streamError (bodyPart : List Nat)
deriving DecidableEq

/-- `download_pdf_file` from `src/main.py`.  Returns the new filesystem and
the list of URLs for which a GET request was issued. -/
def download_pdf_file (pdf_url : List Char) (save_directory : List Char)
    (net : NetResult) (fs : FS) : FS × List (List Char) :=
  let fs1 := makedirs fs save_directory
  let raw_filename := basename (urlparse_path pdf_url)
  let safe_filename := sanitize_filename raw_filename
  if safe_filename = [] then (fs1, [])
  else
    let save_path := os_path_join save_directory safe_filename
    if fs1.pathExists save_path then (fs1, [])
    else
      match net with
      | .ok body => (writeFile fs1 save_path body, [pdf_url])
      | .httpError => (fs1, [pdf_url])
      | .netError => (fs1, [pdf_url])
      | .streamError bp => (writeFile fs1 save_path bp, [pdf_url])

/-- The computed save path of a URL in a directory (as in
`download_pdf_file`). -/
def savePathOf (pdf_url save_directory : List Char) : List Char :=
  os_path_join save_directory
    (sanitize_filename (basename (urlparse_path pdf_url)))

/-! ## JSON model and `extract_pdf_urls_from_json` -/

/-- Parsed JSON values (`json.loads` output).  Objects are association
lists; duplicate keys are assumed already resolved by the parser. -/
inductive Json where
  | null
  | bool (b : Bool)
  | num (n : Int)
  | str (s : List Char)
  | arr (elems : List Json)
  | obj (fields : List (List Char × Json))

/-- Python `dict.get key dflt`. -/
def dictGet (fields : List (List Char × Json)) (key : List Char)
    (dflt : Json) : Json :=
  match fields.find? (fun kv => decide (kv.1 = key)) with
  | some kv => kv.2
  | none => dflt

/-- Python `key in dict`. -/
def hasKey (fields : List (List Char × Json)) (key : List Char) : Bool :=
  fields.any (fun kv => decide (kv.1 = key))

def itemsKey : List Char := "items".data

def linkKey : List Char := "link".data

/-- The list comprehension `[item["link"] for item in items if "link" in
item]`.  A non-object entry makes the comprehension raise (modelled as
`.error`). -/
def linkValues : List Json → Except Unit (List Json)
  | [] => .ok []
  | .obj f :: rest =>
    match linkValues rest with
    | .ok vs =>
      if hasKey f linkKey then .ok (dictGet f linkKey .null :: vs) else .ok vs
    | .error e => .error e
  | _ :: _ => .error ()

/-- `extract_pdf_urls_from_json` from `src/main.py`, after `json.loads`:
read `items` with default `[]`, collect the `link` values of its entries.
Non-object data or a non-array `items` value raises (modelled as
`.error`). -/
def extract_pdf_urls_from_json (data : Json) : Except Unit (List Json) :=
  match data with
  | .obj fields =>
    match dictGet fields itemsKey (.arr []) with
    | .arr items => linkValues items
    | _ => .error ()
  | _ => .error ()

/-! ## Validator and orchestrator -/

/-- Outcome of `fitz.open(path)`: a `RuntimeError`, or a document with a
page count. -/
inductive PdfOpenResult where
  | openError
  | opened (page_count : Nat)
deriving DecidableEq

/-- `is_valid_pdf` from `src/main.py`, over the open-outcome oracle. -/
def is_valid_pdf (r : PdfOpenResult) : Bool :=
  match r with
  | .openError => false
  | .opened n => if n = 0 then false else true

/-- `contains_uppercase` from `src/main.py` (`str.isupper` restricted to
ASCII, which is exact for the filenames this program produces). -/
def contains_uppercase (text : List Char) : Bool :=
  text.any (fun c => decide (65 ≤ c.toNat ∧ c.toNat ≤ 90))

/-- `get_filename_from_path` from `src/main.py`. -/
def get_filename_from_path (file_path : List Char) : List Char :=
  basename file_path

/-- `delete_file` from `src/main.py`: remove the file if the path exists. -/
def delete_file (fs : FS) (p : List Char) : FS :=
  if fs.pathExists p then
    { fs with files := fs.files.filter (fun e => !(decide (e.1 = p))) }
  else fs

/-- `list_files_with_extension` over the model: the recorded files under
the directory whose names end with the extension. -/
def list_files_with_extension (fs : FS) (directory ext : List Char) :
    List (List Char) :=
  (fs.files.map (fun e => e.1)).filter
    (fun p => (directory ++ ['/']).isPrefixOf p && ext.isSuffixOf p)

/-- The validation loop of `main` (`src/main.py` lines 219–229): per file,
delete it if invalid, then log a NOTICE if its name contains uppercase
letters.  Returns the final filesystem and the list of files for which the
NOTICE was printed, in order. -/
def validateLoop (openO : List Char → PdfOpenResult) :
    FS → List (List Char) → FS × List (List Char)
  | fs, [] => (fs, [])
  | fs, f :: rest =>
    let fs1 := if is_valid_pdf (openO f) then fs else delete_file fs f
    let r := validateLoop openO fs1 rest
    (r.1, if contains_uppercase (get_filename_from_path f) then f :: r.2 else r.2)

/-- Observable events of a run, in order. -/
inductive Event where
  | pageStart (n : Nat)
  | pageFail (n : Nat)
  | sleepEv (d : Nat)
  | linkFail (url : List Char)
  | requestEv (url : List Char)
  | noticeEv (path : List Char)
  | validateStart
deriving DecidableEq

/-- Outcome of one `download_pdf_file(pdf_url, ...)` call site in the inner
loop: either the call runs to completion (all its handled branches,
parameterised by the network outcome), or it raises an unexpected
exception caught by the inner `except` (with an arbitrary partial effect
on the filesystem). -/
inductive LinkOutcome where
  | handled (net : NetResult)
  | unexpected (eff : FS → FS)

/-- Outcome of one page iteration's guarded prelude
(`fetch_api_data` + `extract_pdf_urls_from_json`): an exception, or the
list of extracted URLs, each paired with its download outcome. -/
inductive PageOutcome where
  | fetchError
  | ok (links : List (List Char × LinkOutcome))

def pdf_download_directory : List Char := "./PDFs".data

/-- One iteration of the inner download loop of `main`. -/
def processLink (dir : List Char) (fs : FS) :
    List Char × LinkOutcome → FS × List Event
  | (url, .handled net) =>
    let r := download_pdf_file url dir net fs
    (r.1, r.2.map Event.requestEv)
  | (url, .unexpected eff) => (eff fs, [Event.sleepEv 30, Event.linkFail url])

/-- The inner download loop of `main` over one page's URLs. -/
def processLinks (dir : List Char) :
    FS → List (List Char × LinkOutcome) → FS × List Event
  | fs, [] => (fs, [])
  | fs, link :: rest =>
    let r := processLink dir fs link
    let r2 := processLinks dir r.1 rest
    (r2.1, r.2 ++ r2.2)

/-- One iteration of the page loop of `main`: on a fetch/extract failure,
log and sleep 10; otherwise process every link. -/
def processPage (pageO : Nat → PageOutcome) (dir : List Char) (fs : FS)
    (n : Nat) : FS × List Event :=
  match pageO n with
  | .fetchError => (fs, [Event.pageStart n, Event.pageFail n, Event.sleepEv 10])
  | .ok links =>
    let r := processLinks dir fs links
    (r.1, Event.pageStart n :: r.2)

/-- The page loop of `main` over a list of page numbers. -/
def runPages (pageO : Nat → PageOutcome) (dir : List Char) :
    FS → List Nat → FS × List Event
  | fs, [] => (fs, [])
  | fs, n :: rest =>
    let r := processPage pageO dir fs n
    let r2 := runPages pageO dir r.1 rest
    (r2.1, r.2 ++ r2.2)

/-- `range(1, 6)`. -/
def pagesToFetch : List Nat := [1, 2, 3, 4, 5]

/-- `main` from `src/main.py`: five page iterations, then listing and
validating the downloaded PDFs. -/
def mainRun (pageO : Nat → PageOutcome) (openO : List Char → PdfOpenResult)
    (fs : FS) : FS × List Event :=
  let r := runPages pageO pdf_download_directory fs pagesToFetch
  let pdf_files := list_files_with_extension r.1 pdf_download_directory pdfExt
  let v := validateLoop openO r.1 pdf_files
  (v.1, r.2 ++ Event.validateStart :: v.2.map Event.noticeEv)

/-! ## Character-level lemmas -/

theorem char_toNat_inj {c d : Char} (h : c.toNat = d.toNat) : c = d :=
  Char.eq_of_val_eq (UInt32.ext h)

theorem char_eq_iff_toNat {c d : Char} : c = d ↔ c.toNat = d.toNat :=
  ⟨fun h => h ▸ rfl, char_toNat_inj⟩

theorem toNat_ofNat_valid {n : Nat} (h : n < 55296) : (Char.ofNat n).toNat = n := by
  have hv : n.isValidChar := Or.inl h
  simp [Char.ofNat, hv]
  rfl

theorem lowerChar_of_not_upper {c : Char} (h : ¬ (65 ≤ c.toNat ∧ c.toNat ≤ 90)) :
    lowerChar c = c := by
  simp [lowerChar, h]

theorem toNat_lowerChar_upper {c : Char} (h : 65 ≤ c.toNat ∧ c.toNat ≤ 90) :
    (lowerChar c).toNat = c.toNat + 32 := by
  simp only [lowerChar, if_pos h]
  exact toNat_ofNat_valid (by omega)

theorem isLowerWordChar_lowerChar {c : Char} (h : isWordChar c = true) :
    isLowerWordChar (lowerChar c) = true := by
  simp only [isWordChar, decide_eq_true_eq] at h
  by_cases hu : 65 ≤ c.toNat ∧ c.toNat ≤ 90
  · have ht := toNat_lowerChar_upper hu
    simp only [isLowerWordChar, decide_eq_true_eq, ht]
    omega
  · rw [lowerChar_of_not_upper hu]
    simp only [isLowerWordChar, decide_eq_true_eq]
    omega

theorem lowerChar_eq_self {c : Char} (h : isLowerWordChar c = true) :
    lowerChar c = c := by
  simp only [isLowerWordChar, decide_eq_true_eq] at h
  exact lowerChar_of_not_upper (by omega)

theorem lowerChar_underscore_iff {c : Char} : lowerChar c = '_' ↔ c = '_' := by
  constructor
  · intro h
    by_cases hu : 65 ≤ c.toNat ∧ c.toNat ≤ 90
    · exfalso
      have h2 : ('_').toNat = c.toNat + 32 := by
        rw [← h]
        exact toNat_lowerChar_upper hu
      have h3 : ('_').toNat = 95 := rfl
      omega
    · rwa [lowerChar_of_not_upper hu] at h
  · intro h
    subst h
    decide

theorem isWordChar_substChar (c : Char) : isWordChar (substChar c) = true := by
  unfold substChar
  by_cases h : isWordChar c = true
  · simp [h]
  · simp [h]
    decide

theorem substChar_eq_self {c : Char} (h : isWordChar c = true) : substChar c = c := by
  simp [substChar, h]

theorem isWordChar_of_lower {c : Char} (h : isLowerWordChar c = true) :
    isWordChar c = true := by
  simp only [isLowerWordChar, decide_eq_true_eq] at h
  simp only [isWordChar, decide_eq_true_eq]
  omega

theorem lower_ne_pct {c : Char} (h : isLowerWordChar c = true) : ¬ c = '%' := by
  simp only [isLowerWordChar, decide_eq_true_eq] at h
  intro hc
  rw [char_eq_iff_toNat] at hc
  have : ('%').toNat = 37 := rfl
  omega

theorem lower_ne_slash {c : Char} (h : isLowerWordChar c = true) : ¬ c = '/' := by
  simp only [isLowerWordChar, decide_eq_true_eq] at h
  intro hc
  rw [char_eq_iff_toNat] at hc
  have : ('/').toNat = 47 := rfl
  omega

theorem lower_ne_dot {c : Char} (h : isLowerWordChar c = true) : ¬ c = '.' := by
  simp only [isLowerWordChar, decide_eq_true_eq] at h
  intro hc
  rw [char_eq_iff_toNat] at hc
  have : ('.').toNat = 46 := rfl
  omega

/-! ## List-level lemmas for the sanitizer pipeline -/

theorem map_eq_self_of {f : Char → Char} :
    ∀ {l : List Char}, (∀ c ∈ l, f c = c) → l.map f = l
  | [], _ => rfl
  | a :: t, h => by
    simp only [List.map_cons]
    rw [h a (List.mem_cons_self a t), map_eq_self_of (fun c hc => h c (List.mem_cons_of_mem a hc))]

/-- No two adjacent underscores. -/
def noAdjUnd : List Char → Bool
  | [] => true
  | [_] => true
  | a :: b :: rest => if a = '_' ∧ b = '_' then false else noAdjUnd (b :: rest)

theorem noAdjUnd_tail {a : Char} {l : List Char} (h : noAdjUnd (a :: l) = true) :
    noAdjUnd l = true := by
  cases l with
  | nil => rfl
  | cons b rest =>
    unfold noAdjUnd at h
    split at h
    · exact absurd h (by simp)
    · exact h

theorem noAdjUnd_eq (a b : Char) (l : List Char) :
    noAdjUnd (a :: b :: l) =
      if a = '_' ∧ b = '_' then false else noAdjUnd (b :: l) := rfl

theorem noAdjUnd_cons_cons {a b : Char} {l : List Char} :
    noAdjUnd (a :: b :: l) = true ↔ ¬ (a = '_' ∧ b = '_') ∧ noAdjUnd (b :: l) = true := by
  rw [noAdjUnd_eq]
  split
  · simp_all
  · simp_all

theorem collapse_cons_cons (a b : Char) (rest : List Char) :
    collapse (a :: b :: rest) =
      if a = '_' ∧ b = '_' then collapse (b :: rest)
      else a :: collapse (b :: rest) := rfl

theorem collapse_cons : ∀ (l : List Char) (a : Char), ∃ t, collapse (a :: l) = a :: t := by
  intro l
  induction l with
  | nil => exact fun a => ⟨[], rfl⟩
  | cons b rest ih =>
    intro a
    by_cases h : a = '_' ∧ b = '_'
    · obtain ⟨t, ht⟩ := ih b
      refine ⟨t, ?_⟩
      rw [collapse_cons_cons, if_pos h, ht, h.1, h.2]
    · exact ⟨collapse (b :: rest), by rw [collapse_cons_cons, if_neg h]⟩

theorem noAdjUnd_collapse : ∀ l : List Char, noAdjUnd (collapse l) = true
  | [] => rfl
  | [c] => rfl
  | a :: b :: rest => by
    unfold collapse
    by_cases h : a = '_' ∧ b = '_'
    · rw [if_pos h]
      exact noAdjUnd_collapse (b :: rest)
    · rw [if_neg h]
      obtain ⟨t, ht⟩ := collapse_cons rest b
      rw [ht]
      rw [noAdjUnd_cons_cons]
      refine ⟨h, ?_⟩
      rw [← ht]
      exact noAdjUnd_collapse (b :: rest)

theorem collapse_of_noAdjUnd : ∀ l : List Char, noAdjUnd l = true → collapse l = l
  | [], _ => rfl
  | [c], _ => rfl
  | a :: b :: rest, h => by
    rw [noAdjUnd_cons_cons] at h
    unfold collapse
    rw [if_neg h.1, collapse_of_noAdjUnd (b :: rest) h.2]

theorem mem_collapse : ∀ {l : List Char} {c : Char}, c ∈ collapse l → c ∈ l
  | [], _, h => h
  | [d], _, h => h
  | a :: b :: rest, c, h => by
    unfold collapse at h
    by_cases hab : a = '_' ∧ b = '_'
    · rw [if_pos hab] at h
      exact List.mem_cons_of_mem a (mem_collapse h)
    · rw [if_neg hab] at h
      rcases List.mem_cons.1 h with h1 | h2
      · exact h1 ▸ List.mem_cons_self a _
      · exact List.mem_cons_of_mem a (mem_collapse h2)

theorem mem_rstripUnd : ∀ {l : List Char} {c : Char}, c ∈ rstripUnd l → c ∈ l
  | [], _, h => h
  | a :: rest, c, h => by
    unfold rstripUnd at h
    cases hr : rstripUnd rest with
    | nil =>
      rw [hr] at h
      by_cases ha : a = '_'
      · rw [if_pos ha] at h
        exact absurd h (List.not_mem_nil c)
      · rw [if_neg ha] at h
        rcases List.mem_cons.1 h with h1 | h1
        · exact h1 ▸ List.mem_cons_self a _
        · exact absurd h1 (List.not_mem_nil c)
    | cons x xs =>
      rw [hr] at h
      rcases List.mem_cons.1 h with h1 | h1
      · exact h1 ▸ List.mem_cons_self a _
      · exact List.mem_cons_of_mem a (mem_rstripUnd (hr ▸ h1))

theorem rstripUnd_cons (a : Char) (l : List Char) :
    rstripUnd (a :: l) = [] ∨ ∃ t, rstripUnd (a :: l) = a :: t := by
  unfold rstripUnd
  cases hr : rstripUnd l with
  | nil =>
    by_cases ha : a = '_'
    · exact Or.inl (by rw [if_pos ha])
    · exact Or.inr ⟨[], by rw [if_neg ha]⟩
  | cons x xs => exact Or.inr ⟨x :: xs, rfl⟩

theorem getLast?_rstripUnd : ∀ {l : List Char} {c : Char},
    (rstripUnd l).getLast? = some c → ¬ c = '_'
  | [], c, h => by simp [rstripUnd] at h
  | a :: rest, c, h => by
    unfold rstripUnd at h
    cases hr : rstripUnd rest with
    | nil =>
      rw [hr] at h
      by_cases ha : a = '_'
      · rw [if_pos ha] at h
        simp at h
      · rw [if_neg ha] at h
        simp at h
        exact h ▸ ha
    | cons x xs =>
      rw [hr, List.getLast?_cons_cons] at h
      exact @getLast?_rstripUnd rest _ (hr ▸ h)

theorem noAdjUnd_rstripUnd : ∀ {l : List Char}, noAdjUnd l = true →
    noAdjUnd (rstripUnd l) = true
  | [], _ => rfl
  | a :: rest, h => by
    unfold rstripUnd
    cases hr : rstripUnd rest with
    | nil =>
      by_cases ha : a = '_'
      · rw [if_pos ha]; rfl
      · rw [if_neg ha]; rfl
    | cons x xs =>
      have htail := noAdjUnd_tail h
      have hrec := noAdjUnd_rstripUnd htail
      rw [hr] at hrec
      cases rest with
      | nil => simp [rstripUnd] at hr
      | cons b rest2 =>
        rcases rstripUnd_cons b rest2 with h0 | ⟨t, ht⟩
        · rw [h0] at hr; exact absurd hr (by simp)
        · rw [ht] at hr
          have hxb : x = b := (List.cons.injEq _ _ _ _ ▸ hr).1.symm
          rw [noAdjUnd_cons_cons]
          refine ⟨?_, hrec⟩
          rw [noAdjUnd_cons_cons] at h
          rw [hxb]
          exact h.1

theorem rstripUnd_eq_self : ∀ {l : List Char},
    (∀ c, l.getLast? = some c → ¬ c = '_') → rstripUnd l = l
  | [], _ => rfl
  | a :: rest, h => by
    unfold rstripUnd
    cases rest with
    | nil =>
      have ha := h a rfl
      simp [rstripUnd, if_neg ha]
    | cons b rest2 =>
      have hrec : rstripUnd (b :: rest2) = b :: rest2 :=
        rstripUnd_eq_self (fun c hc => h c (by rw [List.getLast?_cons_cons]; exact hc))
      rw [hrec]

theorem dropWhile_head_not {p : Char → Bool} :
    ∀ {l : List Char} {a : Char} {t : List Char}, l.dropWhile p = a :: t → p a = false
  | [], a, t, h => by simp [List.dropWhile] at h
  | b :: rest, a, t, h => by
    rw [List.dropWhile_cons] at h
    by_cases hb : p b = true
    · rw [if_pos hb] at h
      exact dropWhile_head_not h
    · rw [if_neg hb] at h
      have : b = a := (List.cons.injEq _ _ _ _ ▸ h).1
      rw [← this]
      exact Bool.not_eq_true _ ▸ hb

theorem mem_dropWhile {p : Char → Bool} :
    ∀ {l : List Char} {c : Char}, c ∈ l.dropWhile p → c ∈ l
  | [], _, h => h
  | b :: rest, c, h => by
    rw [List.dropWhile_cons] at h
    by_cases hb : p b = true
    · rw [if_pos hb] at h
      exact List.mem_cons_of_mem b (mem_dropWhile h)
    · rwa [if_neg hb] at h

theorem noAdjUnd_dropWhile {p : Char → Bool} :
    ∀ {l : List Char}, noAdjUnd l = true → noAdjUnd (l.dropWhile p) = true
  | [], _ => rfl
  | b :: rest, h => by
    rw [List.dropWhile_cons]
    by_cases hb : p b = true
    · rw [if_pos hb]
      exact noAdjUnd_dropWhile (noAdjUnd_tail h)
    · rwa [if_neg hb]

theorem mem_stripUnd {l : List Char} {c : Char} (h : c ∈ stripUnd l) : c ∈ l :=
  mem_dropWhile (mem_rstripUnd h)

theorem noAdjUnd_stripUnd {l : List Char} (h : noAdjUnd l = true) :
    noAdjUnd (stripUnd l) = true :=
  noAdjUnd_rstripUnd (noAdjUnd_dropWhile h)

theorem dropWhile_cons_of_not {p : Char → Bool} {a : Char} {l : List Char}
    (h : p a = false) : (a :: l).dropWhile p = a :: l := by
  rw [List.dropWhile_cons, if_neg (by simp [h])]

theorem stripUnd_head_not {l : List Char} {a : Char} {t : List Char}
    (h : stripUnd l = a :: t) : ¬ a = '_' := by
  unfold stripUnd at h
  rcases hd : l.dropWhile (fun c => decide (c = '_')) with _ | ⟨b, d2⟩
  · rw [hd] at h
    simp [rstripUnd] at h
  · rw [hd] at h
    rcases rstripUnd_cons b d2 with h0 | ⟨t2, ht2⟩
    · rw [h0] at h
      exact absurd h (by simp)
    · rw [ht2] at h
      have hab : b = a := (List.cons.injEq _ _ _ _ ▸ h).1
      have hb := dropWhile_head_not hd
      rw [← hab]
      simpa using hb

theorem getLast?_stripUnd {l : List Char} {c : Char}
    (h : (stripUnd l).getLast? = some c) : ¬ c = '_' :=
  getLast?_rstripUnd h

theorem noAdjUnd_map_lower : ∀ {l : List Char}, noAdjUnd l = true →
    noAdjUnd (l.map lowerChar) = true
  | [], _ => rfl
  | [_], _ => rfl
  | a :: b :: rest, h => by
    rw [noAdjUnd_cons_cons] at h
    simp only [List.map_cons]
    rw [noAdjUnd_cons_cons]
    constructor
    · intro hc
      exact h.1 ⟨lowerChar_underscore_iff.1 hc.1, lowerChar_underscore_iff.1 hc.2⟩
    · have hrec := noAdjUnd_map_lower h.2
      simpa using hrec

theorem contains_eq_false_of {l : List Char} {x : Char} (h : ¬ x ∈ l) :
    l.contains x = false := by
  rw [← Bool.not_eq_true]
  intro hc
  exact h (List.elem_iff.1 hc)

theorem unquote_of_not_mem {l : List Char} (h : ¬ '%' ∈ l) : unquote l = l := by
  unfold unquote
  rw [contains_eq_false_of h]
  simp

theorem basename_of_not_mem {l : List Char} (h : ∀ c ∈ l, ¬ c = '/') :
    basename l = l := by
  unfold basename
  rw [List.takeWhile_eq_self_iff.2 ?_]
  · exact List.reverse_reverse l
  · intro x hx
    exact decide_eq_true (h x (List.mem_reverse.1 hx))

theorem splitext_append_pdf {w : List Char} (hne : ¬ w = [])
    (hw : ∀ c ∈ w, isLowerWordChar c = true) :
    splitext (w ++ pdfExt) = (w, pdfExt) := by
  simp only [splitext]
  rw [show (w ++ pdfExt).reverse = 'f' :: 'd' :: 'p' :: '.' :: w.reverse from by
    simp [pdfExt]]
  have h1 : (('f' :: 'd' :: 'p' :: '.' :: w.reverse).takeWhile
      (fun c => decide (¬ c = '.'))).length = 3 := rfl
  rw [h1]
  have h2 : (w ++ pdfExt).length = w.length + 4 := by simp [pdfExt]
  rw [h2]
  rw [if_neg (by omega : ¬ 3 = w.length + 4)]
  have h3 : w.length + 4 - 3 - 1 = w.length := by omega
  rw [h3, List.take_left, List.drop_left]
  have h4 : w.all (fun c => decide (c = '.')) = false := by
    cases w with
    | nil => exact absurd rfl hne
    | cons a t =>
      apply List.all_eq_false.2
      refine ⟨a, List.mem_cons_self a t, ?_⟩
      simp only [decide_eq_true_eq]
      exact lower_ne_dot (hw a (List.mem_cons_self a t))
  rw [h4]
  simp

theorem sanitize_filename_eq (f : List Char) :
    sanitize_filename f =
      (if stripUnd (collapse ((splitext (basename (unquote f))).1.map substChar)) = []
       then []
       else (stripUnd (collapse
         ((splitext (basename (unquote f))).1.map substChar))).map lowerChar
         ++ pdfExt) := by
  simp only [sanitize_filename]
  by_cases h3 : stripUnd (collapse ((splitext (basename (unquote f))).1.map substChar)) = []
  · rw [if_pos h3, if_pos h3]
  · rw [if_neg h3, if_neg h3]
    congr 1
    by_cases h : (splitext (basename (unquote f))).2 = pdfExt
    · rw [if_pos h, h]
      decide
    · rw [if_neg h]
      decide

theorem sanitize_shape (f : List Char) (h : ¬ sanitize_filename f = []) :
    ∃ w, sanitize_filename f = w ++ pdfExt ∧ ¬ w = [] ∧
      (∀ c ∈ w, isLowerWordChar c = true) ∧ noAdjUnd w = true ∧
      (∀ a t, w = a :: t → ¬ a = '_') ∧
      (∀ c, w.getLast? = some c → ¬ c = '_') := by
  rw [sanitize_filename_eq] at h ⊢
  by_cases h3 : stripUnd (collapse ((splitext (basename (unquote f))).1.map substChar)) = []
  · exact absurd (by rw [if_pos h3]) h
  · rw [if_neg h3]
    refine ⟨(stripUnd (collapse
      ((splitext (basename (unquote f))).1.map substChar))).map lowerChar,
      rfl, by simp [h3], ?_, ?_, ?_, ?_⟩
    · intro c hc
      obtain ⟨d, hd, rfl⟩ := List.mem_map.1 hc
      obtain ⟨e0, _, rfl⟩ := List.mem_map.1 (mem_collapse (mem_stripUnd hd))
      exact isLowerWordChar_lowerChar (isWordChar_substChar e0)
    · exact noAdjUnd_map_lower (noAdjUnd_stripUnd (noAdjUnd_collapse _))
    · intro a t hat
      rcases hs : stripUnd (collapse ((splitext (basename (unquote f))).1.map substChar))
        with _ | ⟨b, t2⟩
      · exact absurd hs h3
      · rw [hs] at hat
        simp only [List.map_cons, List.cons.injEq] at hat
        have hb : ¬ b = '_' := stripUnd_head_not hs
        intro ha
        rw [← hat.1] at ha
        exact hb (lowerChar_underscore_iff.1 ha)
    · intro c hc
      rw [List.getLast?_map] at hc
      rcases hg : (stripUnd (collapse
        ((splitext (basename (unquote f))).1.map substChar))).getLast? with _ | d
      · rw [hg] at hc
        exact absurd hc (by simp)
      · rw [hg] at hc
        have hd : ¬ d = '_' := getLast?_stripUnd hg
        have hcd : lowerChar d = c := by
          simpa using hc
        intro hcu
        rw [← hcd] at hcu
        exact hd (lowerChar_underscore_iff.1 hcu)

theorem sanitize_fix {w : List Char} (hne : ¬ w = [])
    (hlw : ∀ c ∈ w, isLowerWordChar c = true)
    (hadj : noAdjUnd w = true)
    (hhead : ∀ a t, w = a :: t → ¬ a = '_')
    (hlast : ∀ c, w.getLast? = some c → ¬ c = '_') :
    sanitize_filename (w ++ pdfExt) = w ++ pdfExt := by
  have hnm : ¬ '%' ∈ w ++ pdfExt := by
    intro hm
    rcases List.mem_append.1 hm with hm | hm
    · exact lower_ne_pct (hlw _ hm) rfl
    · simp [pdfExt] at hm
  have hu : unquote (w ++ pdfExt) = w ++ pdfExt := unquote_of_not_mem hnm
  have hb : basename (w ++ pdfExt) = w ++ pdfExt := by
    apply basename_of_not_mem
    intro c hc heq
    rcases List.mem_append.1 hc with hm | hm
    · exact lower_ne_slash (hlw _ hm) heq
    · rw [heq] at hm
      simp [pdfExt] at hm
  have hsp : splitext (w ++ pdfExt) = (w, pdfExt) := splitext_append_pdf hne hlw
  rw [sanitize_filename_eq, hu, hb, hsp]
  simp only
  have hmap : w.map substChar = w :=
    map_eq_self_of (fun c hc => substChar_eq_self (isWordChar_of_lower (hlw c hc)))
  rw [hmap]
  have hcol : collapse w = w := collapse_of_noAdjUnd w hadj
  rw [hcol]
  have hstr : stripUnd w = w := by
    unfold stripUnd
    cases hw : w with
    | nil => exact absurd hw hne
    | cons a t =>
      have ha := hhead a t hw
      rw [dropWhile_cons_of_not (by simp [ha])]
      rw [← hw]
      exact rstripUnd_eq_self hlast
  rw [hstr, if_neg hne]
  rw [map_eq_self_of (fun c hc => lowerChar_eq_self (hlw c hc))]

/-- C1: the filename sanitizer is idempotent — re-running
`sanitize_filename` on its own output returns that output unchanged, for
every input string. -/
theorem sanitize_filename_idempotent (f : List Char) :
    sanitize_filename (sanitize_filename f) = sanitize_filename f := by
  by_cases h : sanitize_filename f = []
  · rw [h]
    rfl
  · obtain ⟨w, heq, hne, hlw, hadj, hhead, hlast⟩ := sanitize_shape f h
    rw [heq]
    exact sanitize_fix hne hlw hadj hhead hlast

/-- C2: whenever `sanitize_filename` returns a non-empty result, the result
is a non-empty word over `[a-z0-9_]` followed by the literal `.pdf` — i.e.
it matches `^[a-z0-9_]+\.pdf$`, the original extension being discarded. -/
theorem sanitize_filename_output_pattern (f : List Char)
    (h : ¬ sanitize_filename f = []) :
    ∃ w, ¬ w = [] ∧ (∀ c ∈ w, isLowerWordChar c = true) ∧
      sanitize_filename f = w ++ pdfExt := by
  obtain ⟨w, heq, hne, hlw, -, -, -⟩ := sanitize_shape f h
  exact ⟨w, hne, hlw, heq⟩

theorem sanitize_filename_output_pattern_witness :
    ¬ sanitize_filename "A b.txt".data = [] ∧
      ∃ w, ¬ w = [] ∧ (∀ c ∈ w, isLowerWordChar c = true) ∧
        sanitize_filename "A b.txt".data = w ++ pdfExt :=
  ⟨by decide, sanitize_filename_output_pattern "A b.txt".data (by decide)⟩

/-! ## Filesystem lemmas for the downloader -/

theorem makedirs_files (fs : FS) (d : List Char) : (makedirs fs d).files = fs.files := by
  unfold makedirs
  split <;> rfl

theorem mem_dirs_makedirs (fs : FS) (d : List Char) : d ∈ (makedirs fs d).dirs := by
  unfold makedirs
  by_cases h : fs.dirs.any (fun x => decide (x = d)) = true
  · rw [if_pos h]
    simp only [List.any_eq_true, decide_eq_true_eq] at h
    obtain ⟨x, hx, hxd⟩ := h
    rw [← hxd]
    exact hx
  · rw [if_neg h]
    exact List.mem_cons_self _ _

theorem fileExists_makedirs (fs : FS) (d p : List Char) :
    (makedirs fs d).fileExists p = fs.fileExists p := by
  unfold FS.fileExists
  rw [makedirs_files]

theorem pathExists_makedirs_of {fs : FS} {d p : List Char}
    (h : fs.pathExists p = true) : (makedirs fs d).pathExists p = true := by
  unfold FS.pathExists at h ⊢
  rw [fileExists_makedirs]
  rcases Bool.or_eq_true_iff.1 h with h1 | h1
  · rw [h1]
    rfl
  · apply Bool.or_eq_true_iff.2
    right
    unfold makedirs
    split
    · exact h1
    · simp only [List.any_cons, Bool.or_eq_true]
      right
      exact h1

theorem fileExists_writeFile_self (fs : FS) (p : List Char) (b : List Nat) :
    (writeFile fs p b).fileExists p = true := by
  simp [writeFile, FS.fileExists]

/-! ## C3, C4, C9, C10: downloader behaviour -/

/-- An alphanumeric character (`[A-Za-z0-9]`). -/
def isAlnumChar (c : Char) : Bool :=
  decide ((65 ≤ c.toNat ∧ c.toNat ≤ 90) ∨ (97 ≤ c.toNat ∧ c.toNat ≤ 122) ∨
    (48 ≤ c.toNat ∧ c.toNat ≤ 57))

theorem collapse_all_und : ∀ {l : List Char}, (∀ c ∈ l, c = '_') →
    l = [] ∨ collapse l = ['_']
  | [], _ => Or.inl rfl
  | [c], h => Or.inr (by
      have hc := h c (List.mem_cons_self c [])
      rw [hc]
      rfl)
  | a :: b :: rest, h => by
    rw [collapse_cons_cons, if_pos ⟨h a (List.mem_cons_self _ _),
      h b (List.mem_cons_of_mem a (List.mem_cons_self _ _))⟩]
    rcases @collapse_all_und (b :: rest)
      (fun c hc => h c (List.mem_cons_of_mem a hc)) with h0 | h0
    · exact absurd h0 (by simp)
    · exact Or.inr h0

theorem substChar_eq_und_of_not_alnum {c : Char} (h : isAlnumChar c = false) :
    substChar c = '_' := by
  unfold substChar
  by_cases hw : isWordChar c = true
  · rw [if_pos hw]
    simp only [isAlnumChar, decide_eq_false_iff_not] at h
    simp only [isWordChar, decide_eq_true_eq] at hw
    apply char_toNat_inj
    have h95 : ('_').toNat = 95 := rfl
    omega
  · rw [if_neg hw]

theorem sanitize_empty_of_no_alnum {f : List Char}
    (h : ∀ c ∈ (splitext (basename (unquote f))).1, isAlnumChar c = false) :
    sanitize_filename f = [] := by
  rw [sanitize_filename_eq]
  have hall : ∀ c ∈ (splitext (basename (unquote f))).1.map substChar, c = '_' := by
    intro c hc
    obtain ⟨d, hd, rfl⟩ := List.mem_map.1 hc
    exact substChar_eq_und_of_not_alnum (h d hd)
  rcases collapse_all_und hall with h0 | h0
  · rw [h0]
    rfl
  · rw [h0]
    rfl

/-- C3: a URL whose decoded base name (before the extension) contains no
alphanumeric characters sanitizes to the empty string, and
`download_pdf_file` then returns without issuing a request or writing any
file. -/
theorem no_alnum_url_skipped (pdf_url save_directory : List Char)
    (net : NetResult) (fs : FS)
    (h : ∀ c ∈ (splitext (basename (unquote (basename (urlparse_path pdf_url))))).1,
      isAlnumChar c = false) :
    sanitize_filename (basename (urlparse_path pdf_url)) = [] ∧
    (download_pdf_file pdf_url save_directory net fs).1.files = fs.files ∧
    (download_pdf_file pdf_url save_directory net fs).2 = [] := by
  have hsan : sanitize_filename (basename (urlparse_path pdf_url)) = [] :=
    sanitize_empty_of_no_alnum h
  refine ⟨hsan, ?_, ?_⟩
  · simp only [download_pdf_file]
    rw [if_pos hsan]
    exact makedirs_files fs save_directory
  · simp only [download_pdf_file]
    rw [if_pos hsan]

theorem no_alnum_url_skipped_witness :
    (∀ c ∈ (splitext (basename (unquote (basename
        (urlparse_path "https://host/___.pdf".data))))).1, isAlnumChar c = false) ∧
    (sanitize_filename (basename (urlparse_path "https://host/___.pdf".data)) = [] ∧
      (download_pdf_file "https://host/___.pdf".data "./PDFs".data
        (.ok [1, 2]) ⟨[], []⟩).1.files = (⟨[], []⟩ : FS).files ∧
      (download_pdf_file "https://host/___.pdf".data "./PDFs".data
        (.ok [1, 2]) ⟨[], []⟩).2 = []) :=
  ⟨by decide, no_alnum_url_skipped "https://host/___.pdf".data "./PDFs".data
    (.ok [1, 2]) ⟨[], []⟩ (by decide)⟩

theorem download_skip_existing {pdf_url save_directory : List Char}
    (fs : FS) (net : NetResult)
    (h : fs.pathExists (savePathOf pdf_url save_directory) = true) :
    (download_pdf_file pdf_url save_directory net fs).1.files = fs.files ∧
    (download_pdf_file pdf_url save_directory net fs).2 = [] := by
  simp only [download_pdf_file]
  by_cases hs : sanitize_filename (basename (urlparse_path pdf_url)) = []
  · rw [if_pos hs]
    exact ⟨makedirs_files fs save_directory, rfl⟩
  · rw [if_neg hs]
    have hex : (makedirs fs save_directory).pathExists
        (os_path_join save_directory
          (sanitize_filename (basename (urlparse_path pdf_url)))) = true :=
      pathExists_makedirs_of h
    rw [if_pos hex]
    exact ⟨makedirs_files fs save_directory, rfl⟩

theorem download_ok_path_exists {pdf_url save_directory : List Char}
    (fs : FS) (body : List Nat)
    (hs : ¬ sanitize_filename (basename (urlparse_path pdf_url)) = []) :
    (download_pdf_file pdf_url save_directory (.ok body) fs).1.pathExists
      (savePathOf pdf_url save_directory) = true := by
  simp only [download_pdf_file]
  rw [if_neg hs]
  by_cases hex : (makedirs fs save_directory).pathExists
      (os_path_join save_directory
        (sanitize_filename (basename (urlparse_path pdf_url)))) = true
  · rw [if_pos hex]
    exact hex
  · rw [if_neg hex]
    unfold FS.pathExists
    apply Bool.or_eq_true_iff.2
    left
    exact fileExists_writeFile_self _ _ _

/-- C4: if a file (or any path) already exists at the computed save path,
`download_pdf_file` leaves the stored files untouched and issues no
request; consequently a second call for the same URL after a successful
first download is a no-op skip. -/
theorem download_dedup_by_filename (pdf_url save_directory : List Char) :
    (∀ (fs : FS) (net : NetResult),
      fs.pathExists (savePathOf pdf_url save_directory) = true →
      (download_pdf_file pdf_url save_directory net fs).1.files = fs.files ∧
      (download_pdf_file pdf_url save_directory net fs).2 = []) ∧
    (∀ (fs : FS) (net2 : NetResult) (body : List Nat),
      ¬ sanitize_filename (basename (urlparse_path pdf_url)) = [] →
      (download_pdf_file pdf_url save_directory net2
          (download_pdf_file pdf_url save_directory (.ok body) fs).1).1.files =
        (download_pdf_file pdf_url save_directory (.ok body) fs).1.files ∧
      (download_pdf_file pdf_url save_directory net2
          (download_pdf_file pdf_url save_directory (.ok body) fs).1).2 = []) := by
  constructor
  · intro fs net h
    exact download_skip_existing fs net h
  · intro fs net2 body hs
    exact download_skip_existing _ net2 (download_ok_path_exists fs body hs)

theorem download_dedup_by_filename_witness :
    ((⟨[], [("./PDFs/a.pdf".data, [])]⟩ : FS).pathExists
        (savePathOf "https://x/A.pdf".data "./PDFs".data) = true ∧
      (download_pdf_file "https://x/A.pdf".data "./PDFs".data .httpError
          ⟨[], [("./PDFs/a.pdf".data, [])]⟩).1.files =
        (⟨[], [("./PDFs/a.pdf".data, [])]⟩ : FS).files ∧
      (download_pdf_file "https://x/A.pdf".data "./PDFs".data .httpError
          ⟨[], [("./PDFs/a.pdf".data, [])]⟩).2 = []) ∧
    ((download_pdf_file "https://x/A.pdf".data "./PDFs".data .netError
        (download_pdf_file "https://x/A.pdf".data "./PDFs".data
          (.ok [7, 7]) ⟨[], []⟩).1).1.files =
      (download_pdf_file "https://x/A.pdf".data "./PDFs".data
        (.ok [7, 7]) ⟨[], []⟩).1.files ∧
      (download_pdf_file "https://x/A.pdf".data "./PDFs".data .netError
        (download_pdf_file "https://x/A.pdf".data "./PDFs".data
          (.ok [7, 7]) ⟨[], []⟩).1).2 = []) :=
  ⟨⟨by decide,
    (download_dedup_by_filename "https://x/A.pdf".data "./PDFs".data).1
      ⟨[], [("./PDFs/a.pdf".data, [])]⟩ .httpError (by decide)⟩,
   (download_dedup_by_filename "https://x/A.pdf".data "./PDFs".data).2
     ⟨[], []⟩ .netError [7, 7] (by decide)⟩

/-- C9: on a failed GET (transport error) or a non-success HTTP status,
`download_pdf_file` creates no file: the status is checked before the
output file is opened, so the stored files are exactly unchanged. -/
theorem download_no_file_on_status_failure (pdf_url save_directory : List Char)
    (fs : FS) :
    (download_pdf_file pdf_url save_directory .httpError fs).1.files = fs.files ∧
    (download_pdf_file pdf_url save_directory .netError fs).1.files = fs.files := by
  constructor <;>
  · simp only [download_pdf_file]
    split
    · exact makedirs_files fs save_directory
    · split
      · exact makedirs_files fs save_directory
      · exact makedirs_files fs save_directory

/-- C10: `download_pdf_file` creates the save directory unconditionally at
entry, before the empty-filename and already-exists checks, for every
network outcome. -/
theorem download_creates_directory (pdf_url save_directory : List Char)
    (net : NetResult) (fs : FS) :
    save_directory ∈ (download_pdf_file pdf_url save_directory net fs).1.dirs := by
  simp only [download_pdf_file]
  split
  · exact mem_dirs_makedirs fs save_directory
  · split
    · exact mem_dirs_makedirs fs save_directory
    · split <;> exact mem_dirs_makedirs fs save_directory

/-! ## C5: the JSON link extractor -/

theorem linkValues_map_obj : ∀ (items : List (List (List Char × Json))),
    linkValues (items.map Json.obj) =
      .ok ((items.filter (fun f => hasKey f linkKey)).map
        (fun f => dictGet f linkKey .null))
  | [] => rfl
  | f :: rest => by
    simp only [List.map_cons, linkValues, linkValues_map_obj rest]
    by_cases h : hasKey f linkKey = true
    · rw [if_pos h, List.filter_cons_of_pos (by exact h), List.map_cons]
    · rw [if_neg h, List.filter_cons_of_neg (by simpa using h)]

/-- C5: `extract_pdf_urls_from_json` returns exactly the `link` values of
the `items` entries that have a `link` key, in order, skipping the others;
an absent `items` key yields the empty list; and the concrete payload
`{"items":[{"link":"https://x/a.pdf"},{"nolink":1},{"link":"https://x/b.PDF"}]}`
yields exactly `["https://x/a.pdf", "https://x/b.PDF"]`. -/
theorem extract_links_spec (fields : List (List Char × Json))
    (items : List (List (List Char × Json))) :
    (dictGet fields itemsKey (.arr []) = .arr (items.map Json.obj) →
      extract_pdf_urls_from_json (.obj fields) =
        .ok ((items.filter (fun f => hasKey f linkKey)).map
          (fun f => dictGet f linkKey .null))) ∧
    (hasKey fields itemsKey = false →
      extract_pdf_urls_from_json (.obj fields) = .ok []) ∧
    (extract_pdf_urls_from_json (Json.obj [(itemsKey,
        Json.arr [Json.obj [(linkKey, Json.str "https://x/a.pdf".data)],
          Json.obj [("nolink".data, Json.num 1)],
          Json.obj [(linkKey, Json.str "https://x/b.PDF".data)]])]) =
      .ok [Json.str "https://x/a.pdf".data, Json.str "https://x/b.PDF".data]) := by
  refine ⟨?_, ?_, ?_⟩
  · intro h
    simp only [extract_pdf_urls_from_json]
    rw [h]
    exact linkValues_map_obj items
  · intro h
    simp only [extract_pdf_urls_from_json]
    have hfind : fields.find? (fun kv => decide (kv.1 = itemsKey)) = none := by
      rw [List.find?_eq_none]
      intro kv hkv
      simp only [hasKey] at h
      rw [← Bool.not_eq_true, List.any_eq_true] at h
      intro hd
      exact h ⟨kv, hkv, hd⟩
    simp only [dictGet, hfind]
    rfl
  · rfl

theorem extract_links_spec_witness :
    (dictGet [(itemsKey, Json.arr [Json.obj [(linkKey, Json.str "u".data)]])]
        itemsKey (.arr []) =
      .arr ([[(linkKey, Json.str "u".data)]].map Json.obj) ∧
      extract_pdf_urls_from_json (.obj [(itemsKey,
          Json.arr [Json.obj [(linkKey, Json.str "u".data)]])]) =
        .ok (([[(linkKey, Json.str "u".data)]].filter
          (fun f => hasKey f linkKey)).map (fun f => dictGet f linkKey .null))) ∧
    (hasKey ([] : List (List Char × Json)) itemsKey = false ∧
      extract_pdf_urls_from_json (.obj []) = .ok []) :=
  ⟨⟨rfl, (extract_links_spec [(itemsKey,
      Json.arr [Json.obj [(linkKey, Json.str "u".data)]])]
      [[(linkKey, Json.str "u".data)]]).1 rfl⟩,
   ⟨rfl, (extract_links_spec [] []).2.1 rfl⟩⟩

/-! ## C6, C7: the validation loop -/

theorem fileExists_delete_self (fs : FS) (p : List Char) :
    (delete_file fs p).fileExists p = false := by
  unfold delete_file
  by_cases h : fs.pathExists p = true
  · rw [if_pos h]
    unfold FS.fileExists
    cases hany : (fs.files.filter
        (fun e => !(decide (e.1 = p)))).any (fun e => decide (e.1 = p))
    · rfl
    · exfalso
      rw [List.any_eq_true] at hany
      obtain ⟨e, he, hd⟩ := hany
      have hne := (List.mem_filter.1 he).2
      rw [decide_eq_true_eq] at hd
      simp [hd] at hne
  · rw [if_neg h]
    unfold FS.pathExists at h
    simp only [Bool.or_eq_true, not_or] at h
    cases hb : fs.fileExists p
    · rfl
    · exact absurd hb h.1

theorem fileExists_delete_other {p q : List Char} (fs : FS) (h : ¬ q = p) :
    (delete_file fs p).fileExists q = fs.fileExists q := by
  unfold delete_file
  by_cases hp : fs.pathExists p = true
  · rw [if_pos hp]
    unfold FS.fileExists
    apply Bool.eq_iff_iff.2
    rw [List.any_eq_true, List.any_eq_true]
    constructor
    · rintro ⟨e, he, hd⟩
      exact ⟨e, (List.mem_filter.1 he).1, hd⟩
    · rintro ⟨e, he, hd⟩
      refine ⟨e, List.mem_filter.2 ⟨he, ?_⟩, hd⟩
      rw [decide_eq_true_eq] at hd
      simp [hd, h]
  · rw [if_neg hp]

theorem fileExists_delete_mono {fs : FS} {p q : List Char}
    (h : (delete_file fs p).fileExists q = true) : fs.fileExists q = true := by
  unfold delete_file at h
  by_cases hp : fs.pathExists p = true
  · rw [if_pos hp] at h
    unfold FS.fileExists at h ⊢
    rw [List.any_eq_true] at h ⊢
    obtain ⟨e, he, hd⟩ := h
    exact ⟨e, (List.mem_filter.1 he).1, hd⟩
  · rwa [if_neg hp] at h

theorem validateLoop_mono (openO : List Char → PdfOpenResult) :
    ∀ {files : List (List Char)} {fs : FS} {q : List Char},
      (validateLoop openO fs files).1.fileExists q = true →
      fs.fileExists q = true
  | [], _, _, h => h
  | f :: rest, fs, q, h => by
    simp only [validateLoop] at h
    have h2 := validateLoop_mono openO h
    by_cases hv : is_valid_pdf (openO f) = true
    · rwa [if_pos hv] at h2
    · rw [if_neg hv] at h2
      exact fileExists_delete_mono h2

theorem validateLoop_not_mem (openO : List Char → PdfOpenResult) :
    ∀ {files : List (List Char)} {fs : FS} {f : List Char},
      ¬ f ∈ files →
      (validateLoop openO fs files).1.fileExists f = fs.fileExists f
  | [], _, _, _ => rfl
  | g :: rest, fs, f, h => by
    have hg : ¬ f = g := fun hc => h (hc ▸ List.mem_cons_self g rest)
    have hr : ¬ f ∈ rest := fun hc => h (List.mem_cons_of_mem g hc)
    simp only [validateLoop]
    rw [validateLoop_not_mem openO hr]
    by_cases hv : is_valid_pdf (openO g) = true
    · rw [if_pos hv]
    · rw [if_neg hv]
      exact fileExists_delete_other fs hg

/-- C6: per listed file, an invalid open outcome (failure or zero pages)
means the file is reported invalid and is absent from the filesystem after
the validation loop; a valid outcome means its presence is exactly as
before the loop (a well-formed file is retained). -/
theorem validator_deletes_invalid_keeps_valid
    (openO : List Char → PdfOpenResult) :
    ∀ (pdf_files : List (List Char)) (fs : FS) (f : List Char),
      pdf_files.Nodup → f ∈ pdf_files →
      (is_valid_pdf (openO f) = false →
        (validateLoop openO fs pdf_files).1.fileExists f = false) ∧
      (is_valid_pdf (openO f) = true →
        (validateLoop openO fs pdf_files).1.fileExists f = fs.fileExists f)
  | [], _, f, _, hf => absurd hf (List.not_mem_nil f)
  | g :: rest, fs, f, hnd, hf => by
    rcases List.mem_cons.1 hf with hfg | hf2
    · subst hfg
      have hnr : ¬ f ∈ rest := (List.nodup_cons.1 hnd).1
      constructor
      · intro hv
        simp only [validateLoop]
        rw [if_neg (by simp [hv])]
        rw [validateLoop_not_mem openO hnr]
        exact fileExists_delete_self fs f
      · intro hv
        simp only [validateLoop]
        rw [if_pos hv]
        exact validateLoop_not_mem openO hnr
    · have hnd2 := (List.nodup_cons.1 hnd).2
      have hgf : ¬ f = g := fun hc => (List.nodup_cons.1 hnd).1 (hc ▸ hf2)
      have ih := validator_deletes_invalid_keeps_valid openO rest
        (if is_valid_pdf (openO g) then fs else delete_file fs g) f hnd2 hf2
      constructor
      · intro hv
        simp only [validateLoop]
        exact ih.1 hv
      · intro hv
        simp only [validateLoop]
        rw [ih.2 hv]
        by_cases hvg : is_valid_pdf (openO g) = true
        · rw [if_pos hvg]
        · rw [if_neg hvg]
          exact fileExists_delete_other fs hgf

theorem validator_deletes_invalid_keeps_valid_witness :
    ((is_valid_pdf ((fun p => if p = "./PDFs/bad.pdf".data
        then PdfOpenResult.openError else PdfOpenResult.opened 1)
        "./PDFs/bad.pdf".data) = false →
      (validateLoop (fun p => if p = "./PDFs/bad.pdf".data
          then PdfOpenResult.openError else PdfOpenResult.opened 1)
        ⟨[], [("./PDFs/bad.pdf".data, []), ("./PDFs/good.pdf".data, [])]⟩
        ["./PDFs/bad.pdf".data, "./PDFs/good.pdf".data]).1.fileExists
        "./PDFs/bad.pdf".data = false) ∧
     (is_valid_pdf ((fun p => if p = "./PDFs/bad.pdf".data
        then PdfOpenResult.openError else PdfOpenResult.opened 1)
        "./PDFs/bad.pdf".data) = true →
      (validateLoop (fun p => if p = "./PDFs/bad.pdf".data
          then PdfOpenResult.openError else PdfOpenResult.opened 1)
        ⟨[], [("./PDFs/bad.pdf".data, []), ("./PDFs/good.pdf".data, [])]⟩
        ["./PDFs/bad.pdf".data, "./PDFs/good.pdf".data]).1.fileExists
        "./PDFs/bad.pdf".data =
        (⟨[], [("./PDFs/bad.pdf".data, []), ("./PDFs/good.pdf".data, [])]⟩ :
          FS).fileExists "./PDFs/bad.pdf".data)) ∧
    ((is_valid_pdf ((fun p => if p = "./PDFs/bad.pdf".data
        then PdfOpenResult.openError else PdfOpenResult.opened 1)
        "./PDFs/good.pdf".data) = false →
      (validateLoop (fun p => if p = "./PDFs/bad.pdf".data
          then PdfOpenResult.openError else PdfOpenResult.opened 1)
        ⟨[], [("./PDFs/bad.pdf".data, []), ("./PDFs/good.pdf".data, [])]⟩
        ["./PDFs/bad.pdf".data, "./PDFs/good.pdf".data]).1.fileExists
        "./PDFs/good.pdf".data = false) ∧
     (is_valid_pdf ((fun p => if p = "./PDFs/bad.pdf".data
        then PdfOpenResult.openError else PdfOpenResult.opened 1)
        "./PDFs/good.pdf".data) = true →
      (validateLoop (fun p => if p = "./PDFs/bad.pdf".data
          then PdfOpenResult.openError else PdfOpenResult.opened 1)
        ⟨[], [("./PDFs/bad.pdf".data, []), ("./PDFs/good.pdf".data, [])]⟩
        ["./PDFs/bad.pdf".data, "./PDFs/good.pdf".data]).1.fileExists
        "./PDFs/good.pdf".data =
        (⟨[], [("./PDFs/bad.pdf".data, []), ("./PDFs/good.pdf".data, [])]⟩ :
          FS).fileExists "./PDFs/good.pdf".data)) :=
  ⟨validator_deletes_invalid_keeps_valid
      (fun p => if p = "./PDFs/bad.pdf".data
        then PdfOpenResult.openError else PdfOpenResult.opened 1)
      ["./PDFs/bad.pdf".data, "./PDFs/good.pdf".data]
      ⟨[], [("./PDFs/bad.pdf".data, []), ("./PDFs/good.pdf".data, [])]⟩
      "./PDFs/bad.pdf".data (by decide) (by decide),
   validator_deletes_invalid_keeps_valid
      (fun p => if p = "./PDFs/bad.pdf".data
        then PdfOpenResult.openError else PdfOpenResult.opened 1)
      ["./PDFs/bad.pdf".data, "./PDFs/good.pdf".data]
      ⟨[], [("./PDFs/bad.pdf".data, []), ("./PDFs/good.pdf".data, [])]⟩
      "./PDFs/good.pdf".data (by decide) (by decide)⟩

/-- The pure deletion part of the validation loop: remove each listed file
whose open outcome is invalid. -/
def deleteInvalid (openO : List Char → PdfOpenResult) :
    FS → List (List Char) → FS
  | fs, [] => fs
  | fs, f :: rest =>
    deleteInvalid openO
      (if is_valid_pdf (openO f) then fs else delete_file fs f) rest

/-- C7 (counterexample): with a single listed file whose name contains an
uppercase letter and which fails to open, the validation loop deletes the
file AND still logs the uppercase NOTICE for it — the NOTICE is not
restricted to files that were retained. -/
theorem validator_notice_counterexample :
    (validateLoop (fun _ => PdfOpenResult.openError)
        ⟨[], [("./PDFs/X.pdf".data, [])]⟩ ["./PDFs/X.pdf".data]).2 =
      ["./PDFs/X.pdf".data] ∧
    (validateLoop (fun _ => PdfOpenResult.openError)
        ⟨[], [("./PDFs/X.pdf".data, [])]⟩ ["./PDFs/X.pdf".data]).1.fileExists
      "./PDFs/X.pdf".data = false := by
  decide

/-- C7 (amended): the uppercase-filename check and its NOTICE are applied
to every file in the validation list — including files just deleted as
invalid — and the check has no effect on the filesystem: the resulting
state is exactly the pure deletion fold. -/
theorem validator_notice_all_listed (openO : List Char → PdfOpenResult) :
    ∀ (pdf_files : List (List Char)) (fs : FS),
      (validateLoop openO fs pdf_files).2 =
        pdf_files.filter (fun f => contains_uppercase (get_filename_from_path f)) ∧
      (validateLoop openO fs pdf_files).1 = deleteInvalid openO fs pdf_files
  | [], fs => ⟨rfl, rfl⟩
  | f :: rest, fs => by
    have ih := validator_notice_all_listed openO rest
      (if is_valid_pdf (openO f) then fs else delete_file fs f)
    simp only [validateLoop, deleteInvalid, List.filter_cons]
    refine ⟨?_, ih.2⟩
    rw [ih.1]

/-! ## C8: the orchestrator's page loop and delays -/

/-- The page numbers started, in order of appearance in the event log. -/
def pageStartsOf (evs : List Event) : List Nat :=
  evs.filterMap (fun e => match e with | .pageStart n => some n | _ => none)

/-- Every page-failure log entry is immediately followed by a 10-unit
sleep. -/
def pfFollowed (evs : List Event) : Prop :=
  ∀ i n, evs[i]? = some (Event.pageFail n) → evs[i + 1]? = some (Event.sleepEv 10)

/-- Every link-failure log entry is immediately preceded by a 30-unit sleep
(and none occurs first in the log). -/
def lfPreceded (evs : List Event) : Prop :=
  (∀ url, ¬ evs[0]? = some (Event.linkFail url)) ∧
  (∀ i url, evs[i + 1]? = some (Event.linkFail url) →
    evs[i]? = some (Event.sleepEv 30))

theorem pfFollowed_of_not_mem {evs : List Event}
    (h : ∀ n, ¬ Event.pageFail n ∈ evs) : pfFollowed evs := by
  intro i n hi
  exact absurd (List.getElem?_mem hi) (h n)

theorem lfPreceded_of_not_mem {evs : List Event}
    (h : ∀ u, ¬ Event.linkFail u ∈ evs) : lfPreceded evs := by
  constructor
  · intro u hu
    exact absurd (List.getElem?_mem hu) (h u)
  · intro i u hu
    exact absurd (List.getElem?_mem hu) (h u)

theorem pfFollowed_append {xs ys : List Event} (hx : pfFollowed xs)
    (hy : pfFollowed ys) : pfFollowed (xs ++ ys) := by
  intro i n hi
  by_cases hlt : i < xs.length
  · rw [List.getElem?_append_left hlt] at hi
    have h2 := hx i n hi
    by_cases hlt2 : i + 1 < xs.length
    · rw [List.getElem?_append_left hlt2]
      exact h2
    · exfalso
      rw [List.getElem?_eq_none (by omega)] at h2
      exact Option.noConfusion h2
  · have hle : xs.length ≤ i := Nat.le_of_not_lt hlt
    rw [List.getElem?_append_right hle] at hi
    have h2 := hy _ n hi
    rw [List.getElem?_append_right (by omega : xs.length ≤ i + 1),
      show i + 1 - xs.length = (i - xs.length) + 1 from by omega]
    exact h2

theorem lfPreceded_append {xs ys : List Event} (hx : lfPreceded xs)
    (hy : lfPreceded ys) : lfPreceded (xs ++ ys) := by
  constructor
  · intro u hu
    cases xs with
    | nil => exact hy.1 u hu
    | cons e rest =>
      rw [List.getElem?_append_left (by simp)] at hu
      exact hx.1 u hu
  · intro i u hu
    by_cases hlt : i + 1 < xs.length
    · rw [List.getElem?_append_left hlt] at hu
      rw [List.getElem?_append_left (by omega)]
      exact hx.2 i u hu
    · by_cases heq : i + 1 = xs.length
      · rw [List.getElem?_append_right (by omega),
          show i + 1 - xs.length = 0 from by omega] at hu
        exact absurd hu (hy.1 u)
      · have hle : xs.length ≤ i := by omega
        rw [List.getElem?_append_right (by omega),
          show i + 1 - xs.length = (i - xs.length) + 1 from by omega] at hu
        rw [List.getElem?_append_right hle]
        exact hy.2 _ u hu

theorem lfPreceded_cons {e : Event} {evs : List Event}
    (he : ∀ u, ¬ e = Event.linkFail u) (h : lfPreceded evs) :
    lfPreceded (e :: evs) := by
  constructor
  · intro u h0
    simp only [List.getElem?_cons_zero, Option.some.injEq] at h0
    exact he u h0
  · intro i u hi
    rw [List.getElem?_cons_succ] at hi
    match i with
    | 0 => exact absurd hi (h.1 u)
    | k + 1 =>
      rw [List.getElem?_cons_succ]
      exact h.2 k u hi

theorem processLink_events (dir : List Char) (fs : FS)
    (link : List Char × LinkOutcome) :
    (∃ reqs : List (List Char),
      (processLink dir fs link).2 = reqs.map Event.requestEv) ∨
    (∃ url, (processLink dir fs link).2 =
      [Event.sleepEv 30, Event.linkFail url]) := by
  rcases link with ⟨url, lo⟩
  cases lo with
  | handled net =>
    refine Or.inl ⟨(download_pdf_file url dir net fs).2, ?_⟩
    simp only [processLink]
  | unexpected eff =>
    refine Or.inr ⟨url, ?_⟩
    simp only [processLink]

theorem noPS_processLinks (dir : List Char) :
    ∀ (links : List (List Char × LinkOutcome)) (fs : FS) (n : Nat),
      ¬ Event.pageStart n ∈ (processLinks dir fs links).2
  | [], _, _ => by simp [processLinks]
  | link :: rest, fs, n => by
    simp only [processLinks]
    intro hm
    rcases List.mem_append.1 hm with h | h
    · rcases processLink_events dir fs link with ⟨reqs, he⟩ | ⟨u, he⟩
      · rw [he] at h
        obtain ⟨x, -, hx⟩ := List.mem_map.1 h
        exact Event.noConfusion hx
      · rw [he] at h
        simp at h
    · exact noPS_processLinks dir rest _ n h

theorem noPF_processLinks (dir : List Char) :
    ∀ (links : List (List Char × LinkOutcome)) (fs : FS) (n : Nat),
      ¬ Event.pageFail n ∈ (processLinks dir fs links).2
  | [], _, _ => by simp [processLinks]
  | link :: rest, fs, n => by
    simp only [processLinks]
    intro hm
    rcases List.mem_append.1 hm with h | h
    · rcases processLink_events dir fs link with ⟨reqs, he⟩ | ⟨u, he⟩
      · rw [he] at h
        obtain ⟨x, -, hx⟩ := List.mem_map.1 h
        exact Event.noConfusion hx
      · rw [he] at h
        simp at h
    · exact noPF_processLinks dir rest _ n h

theorem lf_processLinks (dir : List Char) :
    ∀ (links : List (List Char × LinkOutcome)) (fs : FS),
      lfPreceded (processLinks dir fs links).2
  | [], _ => lfPreceded_of_not_mem (by simp [processLinks])
  | link :: rest, fs => by
    simp only [processLinks]
    apply lfPreceded_append ?_ (lf_processLinks dir rest _)
    rcases processLink_events dir fs link with ⟨reqs, he⟩ | ⟨u, he⟩
    · rw [he]
      apply lfPreceded_of_not_mem
      intro u hm
      obtain ⟨x, -, hx⟩ := List.mem_map.1 hm
      exact Event.noConfusion hx
    · rw [he]
      constructor
      · intro u2 h0
        simp at h0
      · intro i u2 hi
        match i with
        | 0 => rfl
        | k + 1 =>
          exfalso
          rw [List.getElem?_eq_none (by simp)] at hi
          exact Option.noConfusion hi

theorem pageStartsOf_append (xs ys : List Event) :
    pageStartsOf (xs ++ ys) = pageStartsOf xs ++ pageStartsOf ys := by
  simp [pageStartsOf]

theorem pageStartsOf_eq_nil : ∀ {evs : List Event},
    (∀ n, ¬ Event.pageStart n ∈ evs) → pageStartsOf evs = []
  | [], _ => rfl
  | e :: rest, h => by
    have hrest := pageStartsOf_eq_nil (fun n hn => h n (List.mem_cons_of_mem e hn))
    simp only [pageStartsOf, List.filterMap_cons] at hrest ⊢
    cases e with
    | pageStart n => exact absurd (List.mem_cons_self _ _) (h n)
    | pageFail n => exact hrest
    | sleepEv d => exact hrest
    | linkFail u => exact hrest
    | requestEv u => exact hrest
    | noticeEv p => exact hrest
    | validateStart => exact hrest

theorem pageStartsOf_processPage (pageO : Nat → PageOutcome) (dir : List Char)
    (fs : FS) (n : Nat) :
    pageStartsOf (processPage pageO dir fs n).2 = [n] := by
  cases hp : pageO n with
  | fetchError => simp [processPage, hp, pageStartsOf]
  | ok links =>
    simp only [processPage, hp]
    have h0 := pageStartsOf_eq_nil (fun m hm => noPS_processLinks dir links fs m hm)
    simp only [pageStartsOf, List.filterMap_cons] at h0 ⊢
    rw [h0]

theorem pageStartsOf_runPages (pageO : Nat → PageOutcome) (dir : List Char) :
    ∀ (ns : List Nat) (fs : FS), pageStartsOf (runPages pageO dir fs ns).2 = ns
  | [], _ => rfl
  | n :: rest, fs => by
    simp only [runPages]
    rw [pageStartsOf_append, pageStartsOf_processPage,
      pageStartsOf_runPages pageO dir rest _]
    rfl

theorem pf_block_fetchError (n : Nat) :
    pfFollowed [Event.pageStart n, Event.pageFail n, Event.sleepEv 10] := by
  intro i m hi
  match i with
  | 0 => simp at hi
  | 1 => rfl
  | 2 => simp at hi
  | k + 3 =>
    exfalso
    rw [List.getElem?_eq_none (by simp)] at hi
    exact Option.noConfusion hi

theorem pf_processPage (pageO : Nat → PageOutcome) (dir : List Char)
    (fs : FS) (n : Nat) : pfFollowed (processPage pageO dir fs n).2 := by
  cases hp : pageO n with
  | fetchError =>
    simp only [processPage, hp]
    exact pf_block_fetchError n
  | ok links =>
    simp only [processPage, hp]
    apply pfFollowed_of_not_mem
    intro m hm
    rcases List.mem_cons.1 hm with h | h
    · exact Event.noConfusion h
    · exact noPF_processLinks dir links fs m h

theorem pf_runPages (pageO : Nat → PageOutcome) (dir : List Char) :
    ∀ (ns : List Nat) (fs : FS), pfFollowed (runPages pageO dir fs ns).2
  | [], _ => pfFollowed_of_not_mem (by simp [runPages])
  | n :: rest, fs => by
    simp only [runPages]
    exact pfFollowed_append (pf_processPage pageO dir fs n)
      (pf_runPages pageO dir rest _)

theorem lf_processPage (pageO : Nat → PageOutcome) (dir : List Char)
    (fs : FS) (n : Nat) : lfPreceded (processPage pageO dir fs n).2 := by
  cases hp : pageO n with
  | fetchError =>
    simp only [processPage, hp]
    apply lfPreceded_of_not_mem
    intro u hm
    simp at hm
  | ok links =>
    simp only [processPage, hp]
    exact lfPreceded_cons (fun u h => Event.noConfusion h)
      (lf_processLinks dir links fs)

theorem lf_runPages (pageO : Nat → PageOutcome) (dir : List Char) :
    ∀ (ns : List Nat) (fs : FS), lfPreceded (runPages pageO dir fs ns).2
  | [], _ => lfPreceded_of_not_mem (by simp [runPages])
  | n :: rest, fs => by
    simp only [runPages]
    exact lfPreceded_append (lf_processPage pageO dir fs n)
      (lf_runPages pageO dir rest _)

theorem tail_no_page_events (notices : List (List Char)) :
    (∀ n, ¬ Event.pageStart n ∈ Event.validateStart :: notices.map Event.noticeEv) ∧
    (∀ n, ¬ Event.pageFail n ∈ Event.validateStart :: notices.map Event.noticeEv) ∧
    (∀ u, ¬ Event.linkFail u ∈ Event.validateStart :: notices.map Event.noticeEv) := by
  refine ⟨?_, ?_, ?_⟩ <;>
  · intro a hm
    rcases List.mem_cons.1 hm with h | h
    · exact Event.noConfusion h
    · obtain ⟨x, -, hx⟩ := List.mem_map.1 h
      exact Event.noConfusion hx

/-- C8: for every behaviour of the network/page oracles, the run starts
exactly pages 1–5 in order, every page failure is immediately followed by a
10-unit sleep, every link failure is immediately preceded by a 30-unit
sleep, and the event log ends with the validation phase after all page
events — no error escapes the loop bodies. -/
theorem orchestrator_pages_and_delays (pageO : Nat → PageOutcome)
    (openO : List Char → PdfOpenResult) (fs : FS) :
    pageStartsOf (mainRun pageO openO fs).2 = [1, 2, 3, 4, 5] ∧
    pfFollowed (mainRun pageO openO fs).2 ∧
    lfPreceded (mainRun pageO openO fs).2 ∧
    (mainRun pageO openO fs).2 =
      (runPages pageO pdf_download_directory fs pagesToFetch).2 ++
        Event.validateStart ::
          (validateLoop openO
            (runPages pageO pdf_download_directory fs pagesToFetch).1
            (list_files_with_extension
              (runPages pageO pdf_download_directory fs pagesToFetch).1
              pdf_download_directory pdfExt)).2.map Event.noticeEv := by
  have hstruct : (mainRun pageO openO fs).2 =
      (runPages pageO pdf_download_directory fs pagesToFetch).2 ++
        Event.validateStart ::
          (validateLoop openO
            (runPages pageO pdf_download_directory fs pagesToFetch).1
            (list_files_with_extension
              (runPages pageO pdf_download_directory fs pagesToFetch).1
              pdf_download_directory pdfExt)).2.map Event.noticeEv := rfl
  refine ⟨?_, ?_, ?_, hstruct⟩
  · rw [hstruct, pageStartsOf_append,
      pageStartsOf_runPages pageO pdf_download_directory pagesToFetch fs,
      pageStartsOf_eq_nil (tail_no_page_events _).1]
    rfl
  · rw [hstruct]
    exact pfFollowed_append
      (pf_runPages pageO pdf_download_directory pagesToFetch fs)
      (pfFollowed_of_not_mem (tail_no_page_events _).2.1)
  · rw [hstruct]
    exact lfPreceded_append
      (lf_runPages pageO pdf_download_directory pagesToFetch fs)
      (lfPreceded_of_not_mem (tail_no_page_events _).2.2)

theorem orchestrator_pages_and_delays_witness :
    pageStartsOf (mainRun (fun _ => PageOutcome.fetchError)
      (fun _ => PdfOpenResult.openError) ⟨[], []⟩).2 = [1, 2, 3, 4, 5] :=
  (orchestrator_pages_and_delays (fun _ => PageOutcome.fetchError)
    (fun _ => PdfOpenResult.openError) ⟨[], []⟩).1
